import Mathlib

/-!
Shallow embedding of `PageReplacementAnalyzer.cpp` (Page Replacement Algorithm
Analyzer): the four eviction policies `FIFO::processRAM`, `LRU::processRAM`,
`MRU::processRAM`, `OPT::processRAM`, the trace generator
`process::createProcess`, the per-process driver `process::runProcess`, and the
aggregation `analyze::mergeOutput` / `analyze::runProcesses` /
`analyze::createAnalyze`.

Modelling conventions:
* C++ `int` is modelled as `ℤ` (the analyzer treats identifiers and counters as
  mathematical integers; no claim depends on 32-bit wrap-around).
* `std::unordered_set<int>` caches are modelled as `List ℤ`; the container's
  unspecified internal placement is made explicit in FIFO through a `layout`
  oracle choosing the insertion position (FIFO never iterates the set, so its
  result must not depend on it; that independence is proved below).  LRU and MRU
  iterate the set in their eviction scan; the list order models one concrete
  iteration order.
* Operations that are undefined behaviour in the C++ source return `none`:
  `order.front()` / `order.pop()` on an empty queue (FIFO), `*occSet.rbegin()`
  on an empty set and the out-of-range trace read `pageID[removeAt]` (OPT).
* `std::set<int> occSet` is a `Finset ℕ` (it deduplicates, exactly like the
  source), `*occSet.rbegin()` is `Finset.max'`.
* `unordered_map<int,int> lastUsed` with `operator[]` defaulting to 0 is a
  total function `ℤ → ℤ` initialised to the constant 0.
* `rand()` is an arbitrary stream `ℕ → ℕ` of non-negative values.
-/

/-- Run an eviction-policy step function over a reference trace, element by
element (the C++ `for (int id : pageID)` loop); a `none` step aborts the run. -/
def runPolicy {σ : Type} (step : σ → ℤ → Option σ) : σ → List ℤ → Option σ
  | s, [] => some s
  | s, a :: l =>
    match step s a with
    | none => none
    | some s2 => runPolicy step s2 l

/-- Indexed loop `for (i = start; n steps; i++)` with a fallible body. -/
def loopIdx {σ : Type} (step : σ → ℕ → Option σ) : σ → ℕ → ℕ → Option σ
  | s, _, 0 => some s
  | s, i, n + 1 =>
    match step s i with
    | none => none
    | some s2 => loopIdx step s2 (i + 1) n

/-- Indexed loop `for (i = start; n steps; i++)` with a total body. -/
def loopIdxT {σ : Type} (step : σ → ℕ → σ) : σ → ℕ → ℕ → σ
  | s, _, 0 => s
  | s, i, n + 1 => loopIdxT step (step s i) (i + 1) n

/-- Insert a value at a chosen position of the list (models the unspecified
placement of a new element inside `std::unordered_set`). -/
def insertAt : ℕ → ℤ → List ℤ → List ℤ
  | _, a, [] => [a]
  | 0, a, l => a :: l
  | n + 1, a, x :: xs => x :: insertAt n a xs

/-- Working state of `FIFO::processRAM`: the resident set `cache`, the arrival
queue `order` (front at the head), and `missCount`. -/
structure FifoState where
  cache : List ℤ
  order : List ℤ
  missCount : ℤ
  deriving Repr, DecidableEq

/-- One iteration of the `FIFO::processRAM` loop body.  On a miss with
`cache.size() == noOfRAMPages` the front of `order` is evicted from both
structures; `front`/`pop` on an empty queue is undefined in the source and
yields `none` here. -/
def fifoStep (layout : List ℤ → ℤ → ℕ) (noOfRAMPages : ℤ) (s : FifoState) (id : ℤ) :
    Option FifoState :=
  if id ∈ s.cache then some s
  else
    match
      (if (s.cache.length : ℤ) = noOfRAMPages then
        match s.order with
        | [] => none
        | f :: q => some (s.cache.erase f, q)
      else some (s.cache, s.order)) with
    | none => none
    | some (c, q) => some ⟨insertAt (layout c id) id c, q ++ [id], s.missCount + 1⟩

/-- `FIFO::processRAM`: returns `{missCount, total}`. -/
def FIFO.processRAM (layout : List ℤ → ℤ → ℕ) (pageID : List ℤ) (noOfRAMPages : ℤ) :
    Option (ℤ × ℤ) :=
  (runPolicy (fifoStep layout noOfRAMPages) ⟨[], [], 0⟩ pageID).map
    (fun s => (s.missCount, (pageID.length : ℤ)))

/-- Working state of `LRU::processRAM` / `MRU::processRAM`. -/
structure LruState where
  cache : List ℤ
  lastUsed : ℤ → ℤ
  missCount : ℤ

/-- The LRU eviction scan `for (p : cache) if (lastUsed[p] < lru) ...`.
The C++ accumulator starts at `INT_MAX` with `val` uninitialised; that is
modelled as a `none` accumulator (no candidate yet), which agrees with the
source whenever trace positions stay below `INT_MAX`. -/
def lruScan (cache : List ℤ) (lastUsed : ℤ → ℤ) : Option ℤ :=
  (cache.foldl
    (fun acc p =>
      match acc with
      | none => some (lastUsed p, p)
      | some lv => if lastUsed p < lv.1 then some (lastUsed p, p) else some lv)
    none).map Prod.snd

/-- One iteration of the `LRU::processRAM` loop body at trace position `i`.
When the eviction scan ran over an empty cache the C++ erases the
indeterminate `val` from that empty set, a no-op, modelled by the `none`
branch leaving the cache unchanged. -/
def lruStep (pageID : List ℤ) (noOfRAMPages : ℤ) (s : LruState) (i : ℕ) : LruState :=
  let id := pageID.getD i 0
  let s2 : LruState :=
    if id ∈ s.cache then s
    else
      let c :=
        if (s.cache.length : ℤ) = noOfRAMPages then
          match lruScan s.cache s.lastUsed with
          | some val => s.cache.erase val
          | none => s.cache
        else s.cache
      ⟨id :: c, s.lastUsed, s.missCount + 1⟩
  ⟨s2.cache, fun q => if q = id then (i : ℤ) else s2.lastUsed q, s2.missCount⟩

/-- `LRU::processRAM`: returns `{missCount, total}`. -/
def LRU.processRAM (pageID : List ℤ) (noOfRAMPages : ℤ) : ℤ × ℤ :=
  ((loopIdxT (lruStep pageID noOfRAMPages) ⟨[], fun _ => 0, 0⟩ 0 pageID.length).missCount,
    (pageID.length : ℤ))

/-- The MRU eviction scan `int mru = -1, val; for (p : cache) if (lastUsed[p] > mru) ...`,
with the uninitialised `val` modelled as a `none` second component. -/
def mruScan (cache : List ℤ) (lastUsed : ℤ → ℤ) : Option ℤ :=
  (cache.foldl
    (fun acc p => if lastUsed p > acc.1 then ((lastUsed p, some p) : ℤ × Option ℤ) else acc)
    ((-1 : ℤ), (none : Option ℤ))).2

/-- One iteration of the `MRU::processRAM` loop body at trace position `i`. -/
def mruStep (pageID : List ℤ) (noOfRAMPages : ℤ) (s : LruState) (i : ℕ) : LruState :=
  let id := pageID.getD i 0
  let s2 : LruState :=
    if id ∈ s.cache then s
    else
      let c :=
        if (s.cache.length : ℤ) = noOfRAMPages then
          match mruScan s.cache s.lastUsed with
          | some val => s.cache.erase val
          | none => s.cache
        else s.cache
      ⟨id :: c, s.lastUsed, s.missCount + 1⟩
  ⟨s2.cache, fun q => if q = id then (i : ℤ) else s2.lastUsed q, s2.missCount⟩

/-- `MRU::processRAM`: returns `{missCount, total}`. -/
def MRU.processRAM (pageID : List ℤ) (noOfRAMPages : ℤ) : ℤ × ℤ :=
  ((loopIdxT (mruStep pageID noOfRAMPages) ⟨[], fun _ => 0, 0⟩ 0 pageID.length).missCount,
    (pageID.length : ℤ))

/-- The backwards precomputation loop of `OPT::processRAM`: for `i` from
`total - 1` down to `0`, `next[i]` is `futureIndex[pageID[i]]` when present and
`total` otherwise, after which `futureIndex[pageID[i]] = i`.  The call with
first argument `k` produces `[next[0], …, next[k-1]]`. -/
def computeNextGo (pageID : List ℤ) (total : ℕ) : ℕ → (ℤ → Option ℕ) → List ℕ
  | 0, _ => []
  | i + 1, futureIndex =>
    let p := pageID.getD i 0
    let n :=
      match futureIndex p with
      | some j => j
      | none => total
    computeNextGo pageID total i (fun q => if q = p then some i else futureIndex q) ++ [n]

/-- The `next` array of `OPT::processRAM`. -/
def computeNext (pageID : List ℤ) : List ℕ :=
  computeNextGo pageID pageID.length pageID.length (fun _ => none)

/-- Working state of `OPT::processRAM`: the resident set `cache`, the ordered
`std::set<int> occSet` of next-occurrence indices (a `Finset`, so it
deduplicates exactly like the source), and `missCount`. -/
structure OptState where
  cache : List ℤ
  occSet : Finset ℕ
  missCount : ℤ

/-- One iteration of the `OPT::processRAM` loop body at trace position `i`.
On a full miss the source takes `removeAt = *occSet.rbegin()` (undefined, hence
`none`, when `occSet` is empty) and reads `pageID[removeAt]`, which is out of
bounds (hence `none`) when `removeAt` is not below the trace length. -/
def optStep (pageID : List ℤ) (next : List ℕ) (noOfRAMPages : ℤ) (s : OptState) (i : ℕ) :
    Option OptState :=
  let p := pageID.getD i 0
  if p ∈ s.cache then
    some ⟨s.cache, insert (next.getD i 0) (s.occSet.erase i), s.missCount⟩
  else
    if (s.cache.length : ℤ) = noOfRAMPages then
      if h : s.occSet.Nonempty then
        let removeAt := s.occSet.max' h
        if removeAt < pageID.length then
          some ⟨p :: s.cache.erase (pageID.getD removeAt 0),
            insert (next.getD i 0) (s.occSet.erase removeAt), s.missCount + 1⟩
        else none
      else none
    else some ⟨p :: s.cache, insert (next.getD i 0) s.occSet, s.missCount + 1⟩

/-- `OPT::processRAM`: returns `{missCount, total}`. -/
def OPT.processRAM (pageID : List ℤ) (noOfRAMPages : ℤ) : Option (ℤ × ℤ) :=
  (loopIdx (optStep pageID (computeNext pageID) noOfRAMPages) ⟨[], ∅, 0⟩ 0 pageID.length).map
    (fun s => (s.missCount, (pageID.length : ℤ)))

/-- `process::createProcess`: generates `100 * noOfPages` references
`rand() % noOfPages + 1` from the random stream `r` (empty when the loop bound
`100 * noOfPages` is not positive, as happens for the sentinel `-1`). -/
def process.createProcess (r : ℕ → ℕ) (noOfPages : ℤ) : List ℤ :=
  (List.range (100 * noOfPages).toNat).map (fun i => ((r i : ℤ) % noOfPages) + 1)

/-- `process::runProcess`: the per-process row, indexed by `algoID`
(0 = unused, 1 = OPT, 2 = FIFO, 3 = LRU, 4 = MRU), each cell `{miss, total}`.
When `noOfPages == -1` no policy is invoked and every cell is `(-1, -1)`. -/
def process.runProcess (layout : List ℤ → ℤ → ℕ) (noOfPages noOfRAMPages : ℤ)
    (pageID : List ℤ) : Option (List (ℤ × ℤ)) :=
  if noOfPages = -1 then
    some [(-1, -1), (-1, -1), (-1, -1), (-1, -1), (-1, -1)]
  else
    match OPT.processRAM pageID noOfRAMPages, FIFO.processRAM layout pageID noOfRAMPages with
    | some o, some f =>
      some [(-1, -1), o, f, LRU.processRAM pageID noOfRAMPages,
        MRU.processRAM pageID noOfRAMPages]
    | _, _ => none

/-- `analyze::mergeOutput`: index-by-index sum of `{miss, total}` cells into the
accumulated row; positions past the accumulator's length are appended. -/
def analyze.mergeOutput : List (ℤ × ℤ) → List (ℤ × ℤ) → List (ℤ × ℤ)
  | acc, [] => acc
  | [], c :: cs => c :: analyze.mergeOutput [] cs
  | a :: as, c :: cs => (a.1 + c.1, a.2 + c.2) :: analyze.mergeOutput as cs

/-- The loop of `analyze::runProcesses`: runs `n` more processes (process index
`i` drawing its trace from the stream `rands i`) and folds each row into the
accumulator with `analyze::mergeOutput`. -/
def analyze.runProcessesGo (layout : List ℤ → ℤ → ℕ) (rands : ℕ → ℕ → ℕ)
    (noOfPages noOfRAMPages : ℤ) : List (ℤ × ℤ) → ℕ → ℕ → Option (List (ℤ × ℤ))
  | acc, _, 0 => some acc
  | acc, i, n + 1 =>
    match
      process.runProcess layout noOfPages noOfRAMPages
        (process.createProcess (rands i) noOfPages) with
    | none => none
    | some row => analyze.runProcessesGo layout rands noOfPages noOfRAMPages
        (analyze.mergeOutput acc row) (i + 1) n

/-- `analyze::runProcesses`: the aggregated row for one page size, folded over
`noOfProcess` processes from an empty accumulator. -/
def analyze.runProcesses (layout : List ℤ → ℤ → ℕ) (rands : ℕ → ℕ → ℕ)
    (noOfProcess noOfPages noOfRAMPages : ℤ) : Option (List (ℤ × ℤ)) :=
  analyze.runProcessesGo layout rands noOfPages noOfRAMPages [] 0 noOfProcess.toNat

/-- `analyze::createAnalyze`, `noOfPages` component: `-1` for page size 0, else
`(processSize + pageSize - 1) / pageSize`. -/
def analyze.noOfPagesOf (processSize pageSize : ℤ) : ℤ :=
  if pageSize = 0 then -1 else (processSize + pageSize - 1) / pageSize

/-- `analyze::createAnalyze`, `noOfRAMPages` component: `-1` for page size 0,
else `RAMSize / pageSize`. -/
def analyze.noOfRAMPagesOf (RAMSize pageSize : ℤ) : ℤ :=
  if pageSize = 0 then -1 else RAMSize / pageSize

/-- The fixed regression trace of the specification. -/
def fixtureTrace : List ℤ := [1, 2, 3, 4, 1, 2, 5, 1, 2, 3, 4, 5]

/-- What `next[i]` means: it is past `i`, at most the trace length, it indexes
the next occurrence of `trace[i]` when it is in range, and no position strictly
between `i` and `next[i]` references the same identifier. -/
def NextSpec (t : List ℤ) (i n : ℕ) : Prop :=
  i < n ∧ n ≤ t.length ∧ (n < t.length → t.getD n 0 = t.getD i 0) ∧
  ∀ m, i < m → m < n → t.getD m 0 ≠ t.getD i 0

/-- Invariant of the backwards `futureIndex` map when positions `≥ k` have been
processed: every stored index is the first occurrence of its key at or past
`k`, and keys without an entry do not occur at or past `k`. -/
def FutInv (t : List ℤ) (k : ℕ) (fut : ℤ → Option ℕ) : Prop :=
  (∀ q j, fut q = some j → k ≤ j ∧ j < t.length ∧ t.getD j 0 = q ∧
    ∀ m, k ≤ m → m < j → t.getD m 0 ≠ q) ∧
  (∀ q, fut q = none → ∀ m, k ≤ m → m < t.length → t.getD m 0 ≠ q)

/-- Invariant of the OPT working state before processing position `i`: the
cache is within capacity, and every in-range `occSet` entry is a future
position whose identifier is resident and does not occur earlier than the
entry (from `i` on).  Entries equal to the trace length (the "never again"
sentinel) carry no information. -/
def OptInv (t : List ℤ) (cap : ℤ) (i : ℕ) (s : OptState) : Prop :=
  (s.cache.length : ℤ) ≤ cap ∧
  ∀ j ∈ s.occSet, j < t.length →
    i ≤ j ∧ t.getD j 0 ∈ s.cache ∧
    ∀ m, i ≤ m → m < j → t.getD m 0 ≠ t.getD j 0

/-- Whatever position the layout oracle picks, `insertAt` produces a
permutation of pushing the element at the front. -/
theorem insertAt_perm (a : ℤ) : ∀ (n : ℕ) (l : List ℤ), List.Perm (insertAt n a l) (a :: l) := by
  intro n
  induction n with
  | zero => intro l; cases l <;> exact List.Perm.refl _
  | succ n ih =>
    intro l
    cases l with
    | nil => exact List.Perm.refl _
    | cons x xs => exact (List.Perm.cons x (ih xs)).trans (List.Perm.swap a x xs)

theorem runPolicy_cons {σ : Type} (step : σ → ℤ → Option σ) (s : σ) (a : ℤ) (l : List ℤ) :
    runPolicy step s (a :: l) =
      match step s a with
      | none => none
      | some s2 => runPolicy step s2 l := rfl

/-- Two FIFO runs whose states agree up to a permutation of the
`unordered_set` contents stay in lock-step: they abort together or end with
equal queues and equal miss counters. -/
theorem fifoRun_layout (cap : ℤ) (o₁ o₂ : List ℤ → ℤ → ℕ) :
    ∀ (t : List ℤ) (s₁ s₂ : FifoState),
      List.Perm s₁.cache s₂.cache → s₁.order = s₂.order → s₁.missCount = s₂.missCount →
      (runPolicy (fifoStep o₁ cap) s₁ t = none ∧ runPolicy (fifoStep o₂ cap) s₂ t = none) ∨
      (∃ u₁ u₂, runPolicy (fifoStep o₁ cap) s₁ t = some u₁ ∧
        runPolicy (fifoStep o₂ cap) s₂ t = some u₂ ∧
        List.Perm u₁.cache u₂.cache ∧ u₁.order = u₂.order ∧ u₁.missCount = u₂.missCount) := by
  intro t
  induction t with
  | nil =>
    intro s₁ s₂ hc ho hm
    exact Or.inr ⟨s₁, s₂, rfl, rfl, hc, ho, hm⟩
  | cons a l ih =>
    intro s₁ s₂ hc ho hm
    by_cases hmem : a ∈ s₁.cache
    · have hmem₂ : a ∈ s₂.cache := hc.mem_iff.mp hmem
      have e₁ : fifoStep o₁ cap s₁ a = some s₁ := by simp [fifoStep, hmem]
      have e₂ : fifoStep o₂ cap s₂ a = some s₂ := by simp [fifoStep, hmem₂]
      rw [runPolicy_cons, runPolicy_cons, e₁, e₂]
      exact ih s₁ s₂ hc ho hm
    · have hmem₂ : a ∉ s₂.cache := fun h => hmem (hc.mem_iff.mpr h)
      have hlen : s₁.cache.length = s₂.cache.length := hc.length_eq
      by_cases hg : (s₁.cache.length : ℤ) = cap
      · have hg₂ : (s₂.cache.length : ℤ) = cap := by rw [← hlen]; exact hg
        cases hso : s₁.order with
        | nil =>
          have e₁ : fifoStep o₁ cap s₁ a = none := by
            simp [fifoStep, hmem, hg, hso]
          have e₂ : fifoStep o₂ cap s₂ a = none := by
            simp [fifoStep, hmem₂, hg₂, ← ho, hso]
          rw [runPolicy_cons, runPolicy_cons, e₁, e₂]
          exact Or.inl ⟨rfl, rfl⟩
        | cons f q =>
          have e₁ : fifoStep o₁ cap s₁ a =
              some ⟨insertAt (o₁ (s₁.cache.erase f) a) a (s₁.cache.erase f), q ++ [a],
                s₁.missCount + 1⟩ := by
            simp [fifoStep, hmem, hg, hso]
          have e₂ : fifoStep o₂ cap s₂ a =
              some ⟨insertAt (o₂ (s₂.cache.erase f) a) a (s₂.cache.erase f), q ++ [a],
                s₂.missCount + 1⟩ := by
            simp [fifoStep, hmem₂, hg₂, ← ho, hso]
          rw [runPolicy_cons, runPolicy_cons, e₁, e₂]
          refine ih _ _ ?_ rfl (by simp [hm])
          exact ((insertAt_perm a _ _).trans ((hc.erase f).cons a)).trans
            (insertAt_perm a _ _).symm
      · have hg₂ : ¬ (s₂.cache.length : ℤ) = cap := by rw [← hlen]; exact hg
        have e₁ : fifoStep o₁ cap s₁ a =
            some ⟨insertAt (o₁ s₁.cache a) a s₁.cache, s₁.order ++ [a],
              s₁.missCount + 1⟩ := by
          simp [fifoStep, hmem, hg]
        have e₂ : fifoStep o₂ cap s₂ a =
            some ⟨insertAt (o₂ s₂.cache a) a s₂.cache, s₂.order ++ [a],
              s₂.missCount + 1⟩ := by
          simp [fifoStep, hmem₂, hg₂]
        rw [runPolicy_cons, runPolicy_cons, e₁, e₂]
        refine ih _ _ ?_ (by rw [ho]) (by simp [hm])
        exact ((insertAt_perm a _ _).trans (hc.cons a)).trans (insertAt_perm a _ _).symm

/-- The FIFO result does not depend on the internal placement of elements in
the `unordered_set`. -/
theorem fifo_layout_irrelevant (o₁ o₂ : List ℤ → ℤ → ℕ) (t : List ℤ) (cap : ℤ) :
    FIFO.processRAM o₁ t cap = FIFO.processRAM o₂ t cap := by
  have h := fifoRun_layout cap o₁ o₂ t ⟨[], [], 0⟩ ⟨[], [], 0⟩ (List.Perm.refl _) rfl rfl
  unfold FIFO.processRAM
  rcases h with ⟨h₁, h₂⟩ | ⟨u₁, u₂, h₁, h₂, _, _, hm⟩
  · rw [h₁, h₂]
  · rw [h₁, h₂]; simp [hm]

/-- C1: the claim says OPT's ordered structure tolerates several residents
sharing one next-occurrence index, losing no entry and only ever looking up
eviction victims at positions below the trace length.  On trace `[1, 2, 3]`
with capacity 2 the `std::set` deduplicates the shared sentinel index 3: after
two steps the cache holds 2 residents while `occSet` holds a single entry, and
the subsequent eviction uses `removeAt = 3 = len(trace)`, an out-of-range trace
position, so the run aborts (`none`). -/
theorem C1_opt_occSet_entry_lost :
    OPT.processRAM [1, 2, 3] 2 = none ∧
    (loopIdx (optStep [1, 2, 3] (computeNext [1, 2, 3]) 2) ⟨[], ∅, 0⟩ 0 2).map
      (fun s => (s.cache.length, s.occSet.card)) = some (2, 1) := by
  exact ⟨rfl, rfl⟩

/-- C2: the claim says OPT's missCount is a lower bound for FIFO, LRU and MRU
on every trace and capacity ≥ 1.  On trace `[1, 2, 3, 1]` with capacity 2,
OPT's eviction reads the out-of-range position `pageID[4]` and the run aborts
with no missCount at all, while FIFO returns 4 misses, so the comparison the
claim requires does not exist. -/
theorem C2_opt_aborts_on_comparison_input :
    OPT.processRAM [1, 2, 3, 1] 2 = none ∧
    ∀ o : List ℤ → ℤ → ℕ, FIFO.processRAM o [1, 2, 3, 1] 2 = some (4, 4) := by
  refine ⟨rfl, fun o => ?_⟩
  rw [fifo_layout_irrelevant o (fun _ _ => 0)]
  rfl

/-- C3: on the fixed fixture trace with capacity 3, FIFO misses 9 of 12, LRU
misses 10 of 12 and MRU misses 7 of 12, exactly as the claim states; OPT
however aborts on an out-of-range trace read (position 12 = len) instead of
returning the claimed 7. -/
theorem C3_fixture_eval :
    (∀ o : List ℤ → ℤ → ℕ, FIFO.processRAM o fixtureTrace 3 = some (9, 12)) ∧
    LRU.processRAM fixtureTrace 3 = (10, 12) ∧
    MRU.processRAM fixtureTrace 3 = (7, 12) ∧
    OPT.processRAM fixtureTrace 3 = none := by
  refine ⟨fun o => ?_, rfl, rfl, rfl⟩
  rw [fifo_layout_irrelevant o (fun _ _ => 0)]
  rfl

/-- C5: the claim says capacity 0 makes every reference a miss
(`missCount = total`).  On trace `[1, 1]` the first miss already triggers the
eviction branch (`cache.size() == 0`): FIFO reads the front of an empty queue
and OPT dereferences `rbegin()` of an empty set (both undefined, `none`), while
LRU and MRU scan an empty cache, erase nothing, insert the page anyway and
return `missCount = 1 ≠ 2 = total`. -/
theorem C5_capacity_zero_eval :
    (∀ o : List ℤ → ℤ → ℕ, FIFO.processRAM o [1, 1] 0 = none) ∧
    LRU.processRAM [1, 1] 0 = (1, 2) ∧
    MRU.processRAM [1, 1] 0 = (1, 2) ∧
    OPT.processRAM [1, 1] 0 = none :=
  ⟨fun _ => rfl, rfl, rfl, rfl⟩

/-- C6 counterexample: with 2 processes, RAMSize = processSize = 5 and page
size 0 (the sentinel configuration), the aggregated row for page size 0 holds
`(-2, -2)` in every cell, not `(-1, -1)` as the claim states: the sentinel
per-process rows are folded into the sum like any other row. -/
theorem C6_sentinel_row_counterexample :
    analyze.runProcesses (fun _ _ => 0) (fun _ _ => 0) 2 (analyze.noOfPagesOf 5 0)
        (analyze.noOfRAMPagesOf 5 0) =
      some [(-2, -2), (-2, -2), (-2, -2), (-2, -2), (-2, -2)] ∧
    analyze.runProcesses (fun _ _ => 0) (fun _ _ => 0) 2 (analyze.noOfPagesOf 5 0)
        (analyze.noOfRAMPagesOf 5 0) ≠
      some [(-1, -1), (-1, -1), (-1, -1), (-1, -1), (-1, -1)] :=
  ⟨rfl, by decide⟩

/-- C9: for `pagesPerProcess ≥ 1` and any random stream, the generated trace
has length exactly `100 × pagesPerProcess` and every element lies in
`[1, pagesPerProcess]`. -/
theorem C9_trace_length_and_range (p : ℤ) (r : ℕ → ℕ) (hp : 1 ≤ p) :
    ((process.createProcess r p).length : ℤ) = 100 * p ∧
    ∀ x ∈ process.createProcess r p, 1 ≤ x ∧ x ≤ p := by
  constructor
  · simp only [process.createProcess, List.length_map, List.length_range]
    omega
  · intro x hx
    simp only [process.createProcess, List.mem_map, List.mem_range] at hx
    obtain ⟨i, _, rfl⟩ := hx
    have h0 : 0 ≤ (r i : ℤ) % p := Int.emod_nonneg _ (by omega)
    have h1 : (r i : ℤ) % p < p := Int.emod_lt_of_pos _ (by omega)
    omega

/-- C9 witness at `pagesPerProcess = 1` with the constant-zero stream. -/
theorem C9_trace_witness :
    1 ≤ (1 : ℤ) ∧ ((process.createProcess (fun _ => 0) 1).length : ℤ) = 100 * 1 ∧
      ∀ x ∈ process.createProcess (fun _ => 0) 1, 1 ≤ x ∧ x ≤ 1 :=
  ⟨le_refl 1, (C9_trace_length_and_range 1 (fun _ => 0) (le_refl 1)).1,
    (C9_trace_length_and_range 1 (fun _ => 0) (le_refl 1)).2⟩

theorem mergeOutput_nil_left : ∀ l : List (ℤ × ℤ), analyze.mergeOutput [] l = l
  | [] => rfl
  | c :: cs => by
    rw [show analyze.mergeOutput [] (c :: cs) = c :: analyze.mergeOutput [] cs from rfl,
      mergeOutput_nil_left cs]

theorem mergeOutput_nil_right : ∀ l : List (ℤ × ℤ), analyze.mergeOutput l [] = l := by
  intro l; cases l <;> rfl

theorem runProcessesGo_succ (layout : List ℤ → ℤ → ℕ) (rands : ℕ → ℕ → ℕ)
    (noOfPages noOfRAMPages : ℤ) (acc : List (ℤ × ℤ)) (i m : ℕ) :
    analyze.runProcessesGo layout rands noOfPages noOfRAMPages acc i (m + 1) =
      match
        process.runProcess layout noOfPages noOfRAMPages
          (process.createProcess (rands i) noOfPages) with
      | none => none
      | some row => analyze.runProcessesGo layout rands noOfPages noOfRAMPages
          (analyze.mergeOutput acc row) (i + 1) m := rfl

/-- Folding `m` further sentinel process rows onto an accumulator that already
holds `(-j, -j)` everywhere yields `(-(j+m), -(j+m))` everywhere. -/
theorem runProcessesGo_sentinel (layout : List ℤ → ℤ → ℕ) (rands : ℕ → ℕ → ℕ)
    (noOfRAMPages : ℤ) :
    ∀ (m i : ℕ) (j : ℤ),
      analyze.runProcessesGo layout rands (-1) noOfRAMPages
          (List.replicate 5 (-j, -j)) i m =
        some (List.replicate 5 (-(j + m), -(j + m))) := by
  intro m
  induction m with
  | zero =>
    intro i j
    simp [analyze.runProcessesGo]
  | succ m ih =>
    intro i j
    have hrow : process.runProcess layout (-1) noOfRAMPages
        (process.createProcess (rands i) (-1)) = some (List.replicate 5 (-1, -1)) := rfl
    have hmerge : analyze.mergeOutput (List.replicate 5 (-j, -j))
        (List.replicate 5 (-1, -1)) = List.replicate 5 (-(j + 1), -(j + 1)) := by
      simp [List.replicate, analyze.mergeOutput, neg_add]
      ring
    rw [runProcessesGo_succ, hrow]
    show analyze.runProcessesGo layout rands (-1) noOfRAMPages
        (analyze.mergeOutput (List.replicate 5 (-j, -j)) (List.replicate 5 (-1, -1)))
        (i + 1) m = _
    rw [hmerge, ih (i + 1) (j + 1)]
    congr 3 <;> push_cast <;> ring

/-- C6 amended: for page size 0 the derived parameters are the sentinels
`pagesPerProcess = -1` and `frameCapacity = -1`, no policy is invoked and every
per-process result cell is `(-1, -1)`; the aggregation however folds these
sentinel rows into the sum like any other row, so for `processCount = n ≥ 1`
the ResultMatrix row for page size 0 holds `(-n, -n)` in every algorithm cell
(equal to `(-1, -1)` exactly when `n = 1`). -/
theorem C6_sentinel_row_amended (layout : List ℤ → ℤ → ℕ) (rands : ℕ → ℕ → ℕ)
    (n RAMSize processSize : ℤ) (hn : 1 ≤ n) :
    analyze.noOfPagesOf processSize 0 = -1 ∧
    analyze.noOfRAMPagesOf RAMSize 0 = -1 ∧
    (∀ pageID : List ℤ, process.runProcess layout (-1) (-1) pageID =
      some (List.replicate 5 (-1, -1))) ∧
    analyze.runProcesses layout rands n (analyze.noOfPagesOf processSize 0)
        (analyze.noOfRAMPagesOf RAMSize 0) =
      some (List.replicate 5 (-n, -n)) := by
  refine ⟨rfl, rfl, fun _ => rfl, ?_⟩
  show analyze.runProcessesGo layout rands (-1) (-1) [] 0 n.toNat = _
  obtain ⟨m, hm⟩ : ∃ m, n.toNat = m + 1 := ⟨n.toNat - 1, by omega⟩
  rw [hm, runProcessesGo_succ]
  have hrow : process.runProcess layout (-1) (-1)
      (process.createProcess (rands 0) (-1)) = some (List.replicate 5 (-1, -1)) := rfl
  rw [hrow]
  show analyze.runProcessesGo layout rands (-1) (-1)
      (analyze.mergeOutput [] (List.replicate 5 (-1, -1))) 1 m = _
  rw [mergeOutput_nil_left]
  have h1 : (List.replicate 5 ((-1 : ℤ), (-1 : ℤ))) =
      List.replicate 5 (-(1 : ℤ), -(1 : ℤ)) := rfl
  rw [h1, runProcessesGo_sentinel layout rands (-1) m 1 1]
  have harith : -((1 : ℤ) + (m : ℤ)) = -n := by omega
  rw [harith]

/-- C6 witness for the amended statement, at one process. -/
theorem C6_sentinel_row_witness :
    1 ≤ (1 : ℤ) ∧
    analyze.runProcesses (fun _ _ => 0) (fun _ _ => 0) 1 (analyze.noOfPagesOf 4 0)
        (analyze.noOfRAMPagesOf 3 0) =
      some (List.replicate 5 (-1, -1)) :=
  ⟨le_refl 1,
    (C6_sentinel_row_amended (fun _ _ => 0) (fun _ _ => 0) 1 3 4 (le_refl 1)).2.2.2⟩

theorem mergeOutput_comm : ∀ x y : List (ℤ × ℤ),
    analyze.mergeOutput x y = analyze.mergeOutput y x := by
  intro x
  induction x with
  | nil => intro y; rw [mergeOutput_nil_left, mergeOutput_nil_right]
  | cons a as ih =>
    intro y
    cases y with
    | nil => rw [mergeOutput_nil_left, mergeOutput_nil_right]
    | cons b bs =>
      show (a.1 + b.1, a.2 + b.2) :: analyze.mergeOutput as bs
          = (b.1 + a.1, b.2 + a.2) :: analyze.mergeOutput bs as
      rw [ih bs, add_comm a.1, add_comm a.2]

theorem mergeOutput_assoc : ∀ x y z : List (ℤ × ℤ),
    analyze.mergeOutput (analyze.mergeOutput x y) z =
      analyze.mergeOutput x (analyze.mergeOutput y z) := by
  intro x
  induction x with
  | nil => intro y z; rw [mergeOutput_nil_left, mergeOutput_nil_left]
  | cons a as ih =>
    intro y z
    cases y with
    | nil => rw [mergeOutput_nil_right, mergeOutput_nil_left]
    | cons b bs =>
      cases z with
      | nil => rw [mergeOutput_nil_right, mergeOutput_nil_right]
      | cons c cs =>
        show (a.1 + b.1 + c.1, a.2 + b.2 + c.2) :: analyze.mergeOutput
            (analyze.mergeOutput as bs) cs
          = (a.1 + (b.1 + c.1), a.2 + (b.2 + c.2)) :: analyze.mergeOutput as
            (analyze.mergeOutput bs cs)
        rw [ih bs cs, add_assoc, add_assoc]

/-- Folding rows with `analyze::mergeOutput` is invariant under permuting the
rows. -/
theorem foldl_mergeOutput_perm {rows rows' : List (List (ℤ × ℤ))}
    (h : List.Perm rows rows') :
    ∀ acc, List.foldl analyze.mergeOutput acc rows =
      List.foldl analyze.mergeOutput acc rows' := by
  induction h with
  | nil => intro acc; rfl
  | cons x _ ih => intro acc; simp only [List.foldl_cons]; exact ih _
  | swap x y l =>
    intro acc
    simp only [List.foldl_cons]
    rw [mergeOutput_assoc, mergeOutput_assoc, mergeOutput_comm y x]
  | trans _ _ ih₁ ih₂ => intro acc; rw [ih₁, ih₂]

theorem mergeOutput_getD (x : List (ℤ × ℤ)) :
    ∀ (y : List (ℤ × ℤ)) (i : ℕ),
      (analyze.mergeOutput x y).getD i 0 = x.getD i 0 + y.getD i 0 := by
  induction x with
  | nil =>
    intro y i
    rw [mergeOutput_nil_left, List.getD_nil, zero_add]
  | cons a as ih =>
    intro y i
    cases y with
    | nil => rw [mergeOutput_nil_right, List.getD_nil, add_zero]
    | cons b bs =>
      cases i with
      | zero =>
        show (a.1 + b.1, a.2 + b.2) = a + b
        rfl
      | succ n =>
        show (analyze.mergeOutput as bs).getD n 0 = as.getD n 0 + bs.getD n 0
        exact ih bs n

theorem foldl_mergeOutput_getD (rows : List (List (ℤ × ℤ))) :
    ∀ (acc : List (ℤ × ℤ)) (i : ℕ),
      (List.foldl analyze.mergeOutput acc rows).getD i 0 =
        acc.getD i 0 + (rows.map (fun r => r.getD i 0)).sum := by
  induction rows with
  | nil => intro acc i; simp
  | cons r rs ih =>
    intro r0 i
    simp only [List.foldl_cons, List.map_cons, List.sum_cons]
    rw [ih, mergeOutput_getD, add_assoc]

/-- C7: folding any rows of identical shape with `analyze::mergeOutput` is
order-invariant, and each cell of the fold is the elementwise sum of that cell
over the rows. -/
theorem C7_merge_order_invariant (rows rows' : List (List (ℤ × ℤ))) (k : ℕ)
    (hshape : ∀ r ∈ rows, r.length = k) (hperm : List.Perm rows rows') :
    List.foldl analyze.mergeOutput [] rows = List.foldl analyze.mergeOutput [] rows' ∧
    ∀ i : ℕ, (List.foldl analyze.mergeOutput [] rows).getD i 0 =
      (rows.map (fun r => r.getD i 0)).sum := by
  refine ⟨foldl_mergeOutput_perm hperm [], fun i => ?_⟩
  rw [foldl_mergeOutput_getD, List.getD_nil, zero_add]

/-- C7 witness on two one-cell rows swapped. -/
theorem C7_merge_order_witness :
    (∀ r ∈ [[((1 : ℤ), (2 : ℤ))], [((3 : ℤ), (4 : ℤ))]], r.length = 1) ∧
    List.Perm [[((1 : ℤ), (2 : ℤ))], [((3 : ℤ), (4 : ℤ))]]
      [[((3 : ℤ), (4 : ℤ))], [((1 : ℤ), (2 : ℤ))]] ∧
    List.foldl analyze.mergeOutput [] [[((1 : ℤ), (2 : ℤ))], [((3 : ℤ), (4 : ℤ))]] =
      List.foldl analyze.mergeOutput [] [[((3 : ℤ), (4 : ℤ))], [((1 : ℤ), (2 : ℤ))]] ∧
    ∀ i : ℕ,
      (List.foldl analyze.mergeOutput []
        [[((1 : ℤ), (2 : ℤ))], [((3 : ℤ), (4 : ℤ))]]).getD i 0 =
      ([[((1 : ℤ), (2 : ℤ))], [((3 : ℤ), (4 : ℤ))]].map (fun r => r.getD i 0)).sum := by
  have hs : ∀ r ∈ [[((1 : ℤ), (2 : ℤ))], [((3 : ℤ), (4 : ℤ))]], r.length = 1 := by decide
  have hp : List.Perm [[((1 : ℤ), (2 : ℤ))], [((3 : ℤ), (4 : ℤ))]]
      [[((3 : ℤ), (4 : ℤ))], [((1 : ℤ), (2 : ℤ))]] := List.Perm.swap _ _ _
  exact ⟨hs, hp, (C7_merge_order_invariant _ _ 1 hs hp).1,
    (C7_merge_order_invariant _ _ 1 hs hp).2⟩

/-- C10: FIFO's evaluation is deterministic: two runs on an identical trace and
identical capacity agree, even across different internal placements of the
`unordered_set` elements (the only run-to-run variation the container allows),
since eviction order is strictly the arrival order held in the queue. -/
theorem C10_fifo_deterministic (o₁ o₂ : List ℤ → ℤ → ℕ) (t : List ℤ) (cap : ℤ) :
    FIFO.processRAM o₁ t cap = FIFO.processRAM o₂ t cap :=
  fifo_layout_irrelevant o₁ o₂ t cap

theorem perm_toFinset {l₁ l₂ : List ℤ} (h : List.Perm l₁ l₂) : l₁.toFinset = l₂.toFinset := by
  ext a
  simp only [List.mem_toFinset]
  exact h.mem_iff

theorem loopIdx_succ {σ : Type} (step : σ → ℕ → Option σ) (s : σ) (i n : ℕ) :
    loopIdx step s i (n + 1) =
      match step s i with
      | none => none
      | some s2 => loopIdx step s2 (i + 1) n := rfl

theorem loopIdxT_succ {σ : Type} (step : σ → ℕ → σ) (s : σ) (i n : ℕ) :
    loopIdxT step s i (n + 1) = loopIdxT step (step s i) (i + 1) n := rfl

/-- With room left (the size check fails), a FIFO run over `rest` from a
duplicate-free cache returns, and adds to the miss counter exactly the number
of identifiers of `rest` that are not yet resident. -/
theorem fifo_cold_go (o : List ℤ → ℤ → ℕ) (cap : ℤ) :
    ∀ (rest : List ℤ) (cache order : List ℤ) (miss : ℤ),
      cache.Nodup →
      ((cache.toFinset ∪ rest.toFinset).card : ℤ) ≤ cap →
      ∃ u : FifoState, runPolicy (fifoStep o cap) ⟨cache, order, miss⟩ rest = some u ∧
        u.missCount = miss + ((cache.toFinset ∪ rest.toFinset).card : ℤ)
          - (cache.toFinset.card : ℤ) := by
  intro rest
  induction rest with
  | nil =>
    intro cache order miss hnd hle
    exact ⟨⟨cache, order, miss⟩, rfl, by simp⟩
  | cons a l ih =>
    intro cache order miss hnd hle
    by_cases hmem : a ∈ cache
    · have e : fifoStep o cap ⟨cache, order, miss⟩ a = some ⟨cache, order, miss⟩ := by
        simp [fifoStep, hmem]
      have habs : cache.toFinset ∪ (a :: l).toFinset = cache.toFinset ∪ l.toFinset := by
        rw [List.toFinset_cons, Finset.union_insert, Finset.insert_eq_self.mpr
          (Finset.mem_union_left _ (List.mem_toFinset.mpr hmem))]
      rw [runPolicy_cons, e]
      rw [habs] at hle ⊢
      exact ih cache order miss hnd hle
    · have hnotin : a ∉ cache.toFinset := by simpa using hmem
      have hsub : insert a cache.toFinset ⊆ cache.toFinset ∪ (a :: l).toFinset := by
        intro x hx
        rcases Finset.mem_insert.mp hx with h | h
        · subst h
          exact Finset.mem_union_right _ (by simp)
        · exact Finset.mem_union_left _ h
      have hlt : (cache.toFinset.card : ℤ) < cap := by
        have h1 := Finset.card_insert_of_not_mem hnotin
        have h2 := Finset.card_le_card hsub
        omega
      have hglen : ¬ ((cache.length : ℤ) = cap) := by
        rw [← List.toFinset_card_of_nodup hnd]
        omega
      have e : fifoStep o cap ⟨cache, order, miss⟩ a =
          some ⟨insertAt (o cache a) a cache, order ++ [a], miss + 1⟩ := by
        simp [fifoStep, hmem, hglen]
      rw [runPolicy_cons, e]
      have hperm := insertAt_perm a (o cache a) cache
      have hnd2 : (insertAt (o cache a) a cache).Nodup :=
        hperm.nodup_iff.mpr (List.nodup_cons.mpr ⟨hmem, hnd⟩)
      have htf : (insertAt (o cache a) a cache).toFinset = insert a cache.toFinset := by
        rw [perm_toFinset hperm, List.toFinset_cons]
      have hU : (insertAt (o cache a) a cache).toFinset ∪ l.toFinset
          = cache.toFinset ∪ (a :: l).toFinset := by
        rw [htf, List.toFinset_cons, Finset.insert_union, Finset.union_insert]
      obtain ⟨u, hu, hm⟩ := ih (insertAt (o cache a) a cache) (order ++ [a]) (miss + 1)
        hnd2 (by rw [hU]; exact hle)
      refine ⟨u, hu, ?_⟩
      rw [hm, hU, htf, Finset.card_insert_of_not_mem hnotin]
      push_cast
      ring

theorem lruStep_hit (t : List ℤ) (cap : ℤ) (cache : List ℤ) (lu : ℤ → ℤ) (miss : ℤ)
    (i : ℕ) (hmem : t.getD i 0 ∈ cache) :
    lruStep t cap ⟨cache, lu, miss⟩ i =
      ⟨cache, fun q => if q = t.getD i 0 then (i : ℤ) else lu q, miss⟩ := by
  simp only [lruStep]
  rw [if_pos hmem]

theorem lruStep_missRoom (t : List ℤ) (cap : ℤ) (cache : List ℤ) (lu : ℤ → ℤ) (miss : ℤ)
    (i : ℕ) (hmem : t.getD i 0 ∉ cache) (hlen : ¬ ((cache.length : ℤ) = cap)) :
    lruStep t cap ⟨cache, lu, miss⟩ i =
      ⟨t.getD i 0 :: cache, fun q => if q = t.getD i 0 then (i : ℤ) else lu q, miss + 1⟩ := by
  simp only [lruStep]
  rw [if_neg hmem, if_neg hlen]

theorem mruStep_hit (t : List ℤ) (cap : ℤ) (cache : List ℤ) (lu : ℤ → ℤ) (miss : ℤ)
    (i : ℕ) (hmem : t.getD i 0 ∈ cache) :
    mruStep t cap ⟨cache, lu, miss⟩ i =
      ⟨cache, fun q => if q = t.getD i 0 then (i : ℤ) else lu q, miss⟩ := by
  simp only [mruStep]
  rw [if_pos hmem]

theorem mruStep_missRoom (t : List ℤ) (cap : ℤ) (cache : List ℤ) (lu : ℤ → ℤ) (miss : ℤ)
    (i : ℕ) (hmem : t.getD i 0 ∉ cache) (hlen : ¬ ((cache.length : ℤ) = cap)) :
    mruStep t cap ⟨cache, lu, miss⟩ i =
      ⟨t.getD i 0 :: cache, fun q => if q = t.getD i 0 then (i : ℤ) else lu q, miss + 1⟩ := by
  simp only [mruStep]
  rw [if_neg hmem, if_neg hlen]

/-- Strict growth bound used by the cold-start runs: as long as the processed
prefix has not seen every distinct identifier of the trace, its distinct count
is strictly below the trace's distinct count. -/
theorem take_card_lt (t : List ℤ) (i : ℕ) (hi : i < t.length)
    (hnotin : t[i] ∉ (t.take i).toFinset) :
    (t.take i).toFinset.card < t.toFinset.card := by
  have hsub : insert t[i] (t.take i).toFinset ⊆ t.toFinset := by
    intro x hx
    rcases Finset.mem_insert.mp hx with h | h
    · subst h
      exact List.mem_toFinset.mpr (List.getElem_mem hi)
    · exact List.mem_toFinset.mpr (List.take_subset _ _ (List.mem_toFinset.mp h))
  have h1 := Finset.card_insert_of_not_mem hnotin
  have h2 := Finset.card_le_card hsub
  omega

/-- Distinct count of the prefix extended by its next element. -/
theorem take_succ_toFinset (t : List ℤ) (i : ℕ) (hi : i < t.length) :
    (t.take (i + 1)).toFinset = insert t[i] (t.take i).toFinset := by
  rw [← List.take_concat_get' t i hi, List.toFinset_append]
  simp only [List.toFinset_cons, List.toFinset_nil, insert_emptyc_eq]
  rw [Finset.union_comm, ← Finset.insert_eq]

/-- Cold-start LRU run: if the whole trace's distinct count fits in the
capacity, the run from a consistent state at position `i` never evicts and ends
with `missCount` equal to the trace's distinct count. -/
theorem lru_cold_go (t : List ℤ) (cap : ℤ) (hcap : (t.toFinset.card : ℤ) ≤ cap) :
    ∀ (n i : ℕ) (cache : List ℤ) (lu : ℤ → ℤ) (miss : ℤ),
      i + n = t.length → cache.Nodup →
      cache.toFinset = (t.take i).toFinset →
      miss = ((t.take i).toFinset.card : ℤ) →
      (loopIdxT (lruStep t cap) ⟨cache, lu, miss⟩ i n).missCount =
        (t.toFinset.card : ℤ) := by
  intro n
  induction n with
  | zero =>
    intro i cache lu miss hin hnd htf hmiss
    have hieq : i = t.length := by omega
    subst hieq
    simp [loopIdxT, hmiss, List.take_length]
  | succ n ih =>
    intro i cache lu miss hin hnd htf hmiss
    have hi : i < t.length := by omega
    have hid : t.getD i 0 = t[i] := List.getD_eq_getElem t 0 hi
    rw [loopIdxT_succ]
    by_cases hmem : t.getD i 0 ∈ cache
    · rw [lruStep_hit t cap cache lu miss i hmem]
      have hins : (t.take (i + 1)).toFinset = (t.take i).toFinset := by
        rw [take_succ_toFinset t i hi, Finset.insert_eq_self.mpr]
        rw [← htf]
        exact List.mem_toFinset.mpr (hid ▸ hmem)
      exact ih (i + 1) cache _ miss (by omega) hnd (htf.trans hins.symm)
        (by rw [hins]; exact hmiss)
    · have hnotin : t[i] ∉ (t.take i).toFinset := by
        rw [← htf]
        exact fun h => hmem (hid ▸ List.mem_toFinset.mp h)
      have hlt := take_card_lt t i hi hnotin
      have hglen : ¬ ((cache.length : ℤ) = cap) := by
        rw [← List.toFinset_card_of_nodup hnd, htf]
        omega
      rw [lruStep_missRoom t cap cache lu miss i hmem hglen]
      refine ih (i + 1) (t.getD i 0 :: cache) _ (miss + 1) (by omega)
        (List.nodup_cons.mpr ⟨hmem, hnd⟩) ?_ ?_
      · rw [List.toFinset_cons, htf, hid, take_succ_toFinset t i hi]
      · rw [take_succ_toFinset t i hi, Finset.card_insert_of_not_mem hnotin, hmiss]
        push_cast
        ring

/-- Cold-start MRU run, identical to the LRU argument. -/
theorem mru_cold_go (t : List ℤ) (cap : ℤ) (hcap : (t.toFinset.card : ℤ) ≤ cap) :
    ∀ (n i : ℕ) (cache : List ℤ) (lu : ℤ → ℤ) (miss : ℤ),
      i + n = t.length → cache.Nodup →
      cache.toFinset = (t.take i).toFinset →
      miss = ((t.take i).toFinset.card : ℤ) →
      (loopIdxT (mruStep t cap) ⟨cache, lu, miss⟩ i n).missCount =
        (t.toFinset.card : ℤ) := by
  intro n
  induction n with
  | zero =>
    intro i cache lu miss hin hnd htf hmiss
    have hieq : i = t.length := by omega
    subst hieq
    simp [loopIdxT, hmiss, List.take_length]
  | succ n ih =>
    intro i cache lu miss hin hnd htf hmiss
    have hi : i < t.length := by omega
    have hid : t.getD i 0 = t[i] := List.getD_eq_getElem t 0 hi
    rw [loopIdxT_succ]
    by_cases hmem : t.getD i 0 ∈ cache
    · rw [mruStep_hit t cap cache lu miss i hmem]
      have hins : (t.take (i + 1)).toFinset = (t.take i).toFinset := by
        rw [take_succ_toFinset t i hi, Finset.insert_eq_self.mpr]
        rw [← htf]
        exact List.mem_toFinset.mpr (hid ▸ hmem)
      exact ih (i + 1) cache _ miss (by omega) hnd (htf.trans hins.symm)
        (by rw [hins]; exact hmiss)
    · have hnotin : t[i] ∉ (t.take i).toFinset := by
        rw [← htf]
        exact fun h => hmem (hid ▸ List.mem_toFinset.mp h)
      have hlt := take_card_lt t i hi hnotin
      have hglen : ¬ ((cache.length : ℤ) = cap) := by
        rw [← List.toFinset_card_of_nodup hnd, htf]
        omega
      rw [mruStep_missRoom t cap cache lu miss i hmem hglen]
      refine ih (i + 1) (t.getD i 0 :: cache) _ (miss + 1) (by omega)
        (List.nodup_cons.mpr ⟨hmem, hnd⟩) ?_ ?_
      · rw [List.toFinset_cons, htf, hid, take_succ_toFinset t i hi]
      · rw [take_succ_toFinset t i hi, Finset.card_insert_of_not_mem hnotin, hmiss]
        push_cast
        ring

theorem optStep_hit (t : List ℤ) (nx : List ℕ) (cap : ℤ) (cache : List ℤ) (occ : Finset ℕ)
    (miss : ℤ) (i : ℕ) (hmem : t.getD i 0 ∈ cache) :
    optStep t nx cap ⟨cache, occ, miss⟩ i =
      some ⟨cache, insert (nx.getD i 0) (occ.erase i), miss⟩ := by
  simp only [optStep]
  rw [if_pos hmem]

theorem optStep_missRoom (t : List ℤ) (nx : List ℕ) (cap : ℤ) (cache : List ℤ)
    (occ : Finset ℕ) (miss : ℤ) (i : ℕ) (hmem : t.getD i 0 ∉ cache)
    (hlen : ¬ ((cache.length : ℤ) = cap)) :
    optStep t nx cap ⟨cache, occ, miss⟩ i =
      some ⟨t.getD i 0 :: cache, insert (nx.getD i 0) occ, miss + 1⟩ := by
  simp only [optStep]
  rw [if_neg hmem, if_neg hlen]

theorem optStep_missFull (t : List ℤ) (nx : List ℕ) (cap : ℤ) (cache : List ℤ)
    (occ : Finset ℕ) (miss : ℤ) (i : ℕ) (hmem : t.getD i 0 ∉ cache)
    (hlen : (cache.length : ℤ) = cap) (hne : occ.Nonempty)
    (hlt : occ.max' hne < t.length) :
    optStep t nx cap ⟨cache, occ, miss⟩ i =
      some ⟨t.getD i 0 :: cache.erase (t.getD (occ.max' hne) 0),
        insert (nx.getD i 0) (occ.erase (occ.max' hne)), miss + 1⟩ := by
  simp only [optStep]
  rw [if_neg hmem, if_pos hlen, dif_pos hne, if_pos hlt]

/-- Cold-start OPT run: with the whole trace's distinct count within capacity,
the run from a consistent state never evicts, never aborts, and ends with
`missCount` equal to the trace's distinct count. -/
theorem opt_cold_go (t : List ℤ) (cap : ℤ) (hcap : (t.toFinset.card : ℤ) ≤ cap) :
    ∀ (n i : ℕ) (cache : List ℤ) (occ : Finset ℕ) (miss : ℤ),
      i + n = t.length → cache.Nodup →
      cache.toFinset = (t.take i).toFinset →
      miss = ((t.take i).toFinset.card : ℤ) →
      ∃ u : OptState,
        loopIdx (optStep t (computeNext t) cap) ⟨cache, occ, miss⟩ i n = some u ∧
        u.missCount = (t.toFinset.card : ℤ) := by
  intro n
  induction n with
  | zero =>
    intro i cache occ miss hin hnd htf hmiss
    have hieq : i = t.length := by omega
    subst hieq
    exact ⟨⟨cache, occ, miss⟩, rfl, by simp [hmiss, List.take_length]⟩
  | succ n ih =>
    intro i cache occ miss hin hnd htf hmiss
    have hi : i < t.length := by omega
    have hid : t.getD i 0 = t[i] := List.getD_eq_getElem t 0 hi
    rw [loopIdx_succ]
    by_cases hmem : t.getD i 0 ∈ cache
    · rw [optStep_hit t (computeNext t) cap cache occ miss i hmem]
      have hins : (t.take (i + 1)).toFinset = (t.take i).toFinset := by
        rw [take_succ_toFinset t i hi, Finset.insert_eq_self.mpr]
        rw [← htf]
        exact List.mem_toFinset.mpr (hid ▸ hmem)
      exact ih (i + 1) cache _ miss (by omega) hnd (htf.trans hins.symm)
        (by rw [hins]; exact hmiss)
    · have hnotin : t[i] ∉ (t.take i).toFinset := by
        rw [← htf]
        exact fun h => hmem (hid ▸ List.mem_toFinset.mp h)
      have hlt := take_card_lt t i hi hnotin
      have hglen : ¬ ((cache.length : ℤ) = cap) := by
        rw [← List.toFinset_card_of_nodup hnd, htf]
        omega
      rw [optStep_missRoom t (computeNext t) cap cache occ miss i hmem hglen]
      refine ih (i + 1) (t.getD i 0 :: cache) _ (miss + 1) (by omega)
        (List.nodup_cons.mpr ⟨hmem, hnd⟩) ?_ ?_
      · rw [List.toFinset_cons, htf, hid, take_succ_toFinset t i hi]
      · rw [take_succ_toFinset t i hi, Finset.card_insert_of_not_mem hnotin, hmiss]
        push_cast
        ring

/-- C4: when the capacity is at least the number of distinct identifiers of the
trace, every one of the four policies only takes the cold-start misses: its
missCount equals the number of distinct identifiers. -/
theorem C4_cold_start (t : List ℤ) (cap : ℤ) (h : (t.toFinset.card : ℤ) ≤ cap) :
    (∀ o : List ℤ → ℤ → ℕ,
      FIFO.processRAM o t cap = some ((t.toFinset.card : ℤ), (t.length : ℤ))) ∧
    LRU.processRAM t cap = ((t.toFinset.card : ℤ), (t.length : ℤ)) ∧
    MRU.processRAM t cap = ((t.toFinset.card : ℤ), (t.length : ℤ)) ∧
    OPT.processRAM t cap = some ((t.toFinset.card : ℤ), (t.length : ℤ)) := by
  refine ⟨fun o => ?_, ?_, ?_, ?_⟩
  · obtain ⟨u, hu, hm⟩ := fifo_cold_go o cap t [] [] 0 List.nodup_nil (by simpa using h)
    unfold FIFO.processRAM
    rw [hu]
    show some (u.missCount, (t.length : ℤ)) = _
    rw [hm]
    simp
  · unfold LRU.processRAM
    rw [lru_cold_go t cap h t.length 0 [] (fun _ => 0) 0 (by omega) List.nodup_nil
      (by simp) (by simp)]
  · unfold MRU.processRAM
    rw [mru_cold_go t cap h t.length 0 [] (fun _ => 0) 0 (by omega) List.nodup_nil
      (by simp) (by simp)]
  · obtain ⟨u, hu, hm⟩ := opt_cold_go t cap h t.length 0 [] ∅ 0 (by omega) List.nodup_nil
      (by simp) (by simp)
    unfold OPT.processRAM
    rw [hu]
    show some (u.missCount, (t.length : ℤ)) = _
    rw [hm]

/-- C4 witness on trace `[1, 2, 1]` with capacity 2 (2 distinct identifiers). -/
theorem C4_cold_start_witness :
    ((([1, 2, 1] : List ℤ).toFinset.card : ℤ) ≤ 2) ∧
    LRU.processRAM [1, 2, 1] 2 = ((([1, 2, 1] : List ℤ).toFinset.card : ℤ), 3) ∧
    OPT.processRAM [1, 2, 1] 2 = some ((([1, 2, 1] : List ℤ).toFinset.card : ℤ), 3) := by
  have h : ((([1, 2, 1] : List ℤ).toFinset.card : ℤ) ≤ 2) := by decide
  exact ⟨h, (C4_cold_start [1, 2, 1] 2 h).2.1, (C4_cold_start [1, 2, 1] 2 h).2.2.2⟩

/-- FIFO size bound: from a state whose cache is a permutation of the queue and
within capacity, every completed run stays within capacity (a full miss evicts
the queue front, which is resident, before inserting). -/
theorem fifo_bound_go (o : List ℤ → ℤ → ℕ) (cap : ℤ) (hcap : 1 ≤ cap) :
    ∀ (rest : List ℤ) (cache order : List ℤ) (miss : ℤ),
      List.Perm cache order → (cache.length : ℤ) ≤ cap →
      ∀ u : FifoState, runPolicy (fifoStep o cap) ⟨cache, order, miss⟩ rest = some u →
        (u.cache.length : ℤ) ≤ cap := by
  intro rest
  induction rest with
  | nil =>
    intro cache order miss hperm hle u hu
    cases hu
    exact hle
  | cons a l ih =>
    intro cache order miss hperm hle u hu
    by_cases hmem : a ∈ cache
    · have e : fifoStep o cap ⟨cache, order, miss⟩ a = some ⟨cache, order, miss⟩ := by
        simp [fifoStep, hmem]
      rw [runPolicy_cons, e] at hu
      exact ih cache order miss hperm hle u hu
    · by_cases hg : (cache.length : ℤ) = cap
      · cases order with
        | nil =>
          have e : fifoStep o cap ⟨cache, [], miss⟩ a = none := by
            simp [fifoStep, hmem, hg]
          rw [runPolicy_cons, e] at hu
          cases hu
        | cons f q =>
          have e : fifoStep o cap ⟨cache, f :: q, miss⟩ a =
              some ⟨insertAt (o (cache.erase f) a) a (cache.erase f), q ++ [a],
                miss + 1⟩ := by
            simp [fifoStep, hmem, hg]
          rw [runPolicy_cons, e] at hu
          have hfmem : f ∈ cache := hperm.mem_iff.mpr (List.mem_cons_self f q)
          have hq : List.Perm (cache.erase f) q := by
            have h1 := hperm.erase f
            rwa [List.erase_cons_head] at h1
          have hperm2 : List.Perm (insertAt (o (cache.erase f) a) a (cache.erase f))
              (q ++ [a]) :=
            ((insertAt_perm a _ _).trans (hq.cons a)).trans
              (List.perm_append_singleton a q).symm
          have hlen2 : ((insertAt (o (cache.erase f) a) a (cache.erase f)).length : ℤ)
              ≤ cap := by
            have h1 := (insertAt_perm a (o (cache.erase f) a) (cache.erase f)).length_eq
            have h2 := List.length_erase_of_mem hfmem
            have h3 : cache.length ≠ 0 := by
              intro h0
              rw [h0] at hg
              omega
            simp only [List.length_cons] at h1
            omega
          exact ih _ _ _ hperm2 hlen2 u hu
      · have e : fifoStep o cap ⟨cache, order, miss⟩ a =
            some ⟨insertAt (o cache a) a cache, order ++ [a], miss + 1⟩ := by
          simp [fifoStep, hmem, hg]
        rw [runPolicy_cons, e] at hu
        have hperm2 : List.Perm (insertAt (o cache a) a cache) (order ++ [a]) :=
          ((insertAt_perm a _ _).trans (hperm.cons a)).trans
            (List.perm_append_singleton a order).symm
        have hlen2 : ((insertAt (o cache a) a cache).length : ℤ) ≤ cap := by
          have h1 := (insertAt_perm a (o cache a) cache).length_eq
          simp only [List.length_cons] at h1
          omega
        exact ih _ _ _ hperm2 hlen2 u hu

/-- Once the LRU scan has a candidate it keeps a candidate, and any candidate
it produces beyond the initial one comes from the scanned list. -/
theorem lruScan_fold_some (lu : ℤ → ℤ) :
    ∀ (l : List ℤ) (acc : ℤ × ℤ),
      ∃ res : ℤ × ℤ,
        l.foldl (fun acc p =>
          match acc with
          | none => some (lu p, p)
          | some lv => if lu p < lv.1 then some (lu p, p) else some lv) (some acc) =
          some res ∧
        (res = acc ∨ res.2 ∈ l) := by
  intro l
  induction l with
  | nil => intro acc; exact ⟨acc, rfl, Or.inl rfl⟩
  | cons p ps ih =>
    intro acc
    by_cases hc : lu p < acc.1
    · obtain ⟨res, hres, hor⟩ := ih (lu p, p)
      refine ⟨res, by simpa [hc] using hres, Or.inr ?_⟩
      rcases hor with h | h
      · rw [h]
        exact List.mem_cons_self p ps
      · exact List.mem_cons_of_mem p h
    · obtain ⟨res, hres, hor⟩ := ih acc
      refine ⟨res, by simpa [hc] using hres, ?_⟩
      rcases hor with h | h
      · exact Or.inl h
      · exact Or.inr (List.mem_cons_of_mem p h)

/-- On a nonempty cache the LRU eviction scan selects a resident. -/
theorem lruScan_mem (lu : ℤ → ℤ) (cache : List ℤ) (hne : cache ≠ []) :
    ∃ v ∈ cache, lruScan cache lu = some v := by
  cases cache with
  | nil => exact absurd rfl hne
  | cons p ps =>
    obtain ⟨res, hres, hor⟩ := lruScan_fold_some lu ps (lu p, p)
    refine ⟨res.2, ?_, ?_⟩
    · rcases hor with h | h
      · rw [h]
        exact List.mem_cons_self p ps
      · exact List.mem_cons_of_mem p h
    · unfold lruScan
      rw [List.foldl_cons]
      show ((ps.foldl _ (some (lu p, p))).map Prod.snd) = some res.2
      rw [hres]
      rfl

/-- The MRU scan either keeps its incoming candidate or returns an element of
the scanned list. -/
theorem mruScan_fold_char (lu : ℤ → ℤ) :
    ∀ (l : List ℤ) (acc : ℤ × Option ℤ),
      (l.foldl (fun acc p =>
          if lu p > acc.1 then ((lu p, some p) : ℤ × Option ℤ) else acc) acc).2 = acc.2 ∨
      ∃ v ∈ l,
        (l.foldl (fun acc p =>
          if lu p > acc.1 then ((lu p, some p) : ℤ × Option ℤ) else acc) acc).2 = some v := by
  intro l
  induction l with
  | nil => intro acc; exact Or.inl rfl
  | cons p ps ih =>
    intro acc
    by_cases hc : lu p > acc.1
    · rcases ih (lu p, some p) with h | ⟨v, hv, he⟩
      · refine Or.inr ⟨p, List.mem_cons_self p ps, ?_⟩
        rw [List.foldl_cons, if_pos hc]
        exact h
      · refine Or.inr ⟨v, List.mem_cons_of_mem p hv, ?_⟩
        rw [List.foldl_cons, if_pos hc]
        exact he
    · rcases ih acc with h | ⟨v, hv, he⟩
      · refine Or.inl ?_
        rw [List.foldl_cons, if_neg hc]
        exact h
      · refine Or.inr ⟨v, List.mem_cons_of_mem p hv, ?_⟩
        rw [List.foldl_cons, if_neg hc]
        exact he

/-- On a nonempty cache whose last-used stamps are non-negative, the MRU
eviction scan selects a resident (the `-1` start value is always beaten). -/
theorem mruScan_mem (lu : ℤ → ℤ) (hlu : ∀ p, 0 ≤ lu p) (cache : List ℤ)
    (hne : cache ≠ []) :
    ∃ v ∈ cache, mruScan cache lu = some v := by
  cases cache with
  | nil => exact absurd rfl hne
  | cons p ps =>
    have hstep : mruScan (p :: ps) lu =
        (ps.foldl (fun acc q =>
          if lu q > acc.1 then ((lu q, some q) : ℤ × Option ℤ) else acc) (lu p, some p)).2 := by
      unfold mruScan
      rw [List.foldl_cons, if_pos (by have := hlu p; omega)]
    rcases mruScan_fold_char lu ps (lu p, some p) with h | ⟨v, hv, he⟩
    · exact ⟨p, List.mem_cons_self p ps, by rw [hstep]; exact h⟩
    · exact ⟨v, List.mem_cons_of_mem p hv, by rw [hstep]; exact he⟩

/-- LRU size bound: every reachable LRU state stays within a capacity ≥ 1. -/
theorem lru_bound_go (t : List ℤ) (cap : ℤ) (hcap : 1 ≤ cap) :
    ∀ (n i : ℕ) (cache : List ℤ) (lu : ℤ → ℤ) (miss : ℤ),
      (cache.length : ℤ) ≤ cap →
      (((loopIdxT (lruStep t cap) ⟨cache, lu, miss⟩ i n).cache.length : ℤ) ≤ cap) := by
  intro n
  induction n with
  | zero => intro i cache lu miss hle; exact hle
  | succ n ih =>
    intro i cache lu miss hle
    rw [loopIdxT_succ]
    by_cases hmem : t.getD i 0 ∈ cache
    · rw [lruStep_hit t cap cache lu miss i hmem]
      exact ih (i + 1) cache _ miss hle
    · by_cases hg : (cache.length : ℤ) = cap
      · have hne : cache ≠ [] := by
          intro h0
          rw [h0] at hg
          simp at hg
          omega
        obtain ⟨v, hv, hscan⟩ := lruScan_mem lu cache hne
        have estep : lruStep t cap ⟨cache, lu, miss⟩ i =
            ⟨t.getD i 0 :: cache.erase v,
              fun q => if q = t.getD i 0 then (i : ℤ) else lu q, miss + 1⟩ := by
          simp only [lruStep]
          rw [if_neg hmem, if_pos hg, hscan]
        rw [estep]
        apply ih
        have h2 := List.length_erase_of_mem hv
        simp only [List.length_cons, h2]
        omega
      · rw [lruStep_missRoom t cap cache lu miss i hmem hg]
        apply ih
        simp only [List.length_cons]
        omega

/-- MRU size bound: every reachable MRU state (its stamps all non-negative)
stays within a capacity ≥ 1. -/
theorem mru_bound_go (t : List ℤ) (cap : ℤ) (hcap : 1 ≤ cap) :
    ∀ (n i : ℕ) (cache : List ℤ) (lu : ℤ → ℤ) (miss : ℤ),
      (∀ p, 0 ≤ lu p) →
      (cache.length : ℤ) ≤ cap →
      (((loopIdxT (mruStep t cap) ⟨cache, lu, miss⟩ i n).cache.length : ℤ) ≤ cap) := by
  intro n
  induction n with
  | zero => intro i cache lu miss hlu hle; exact hle
  | succ n ih =>
    intro i cache lu miss hlu hle
    have hlu2 : ∀ p, 0 ≤ (fun q => if q = t.getD i 0 then (i : ℤ) else lu q) p := by
      intro p
      show 0 ≤ if p = t.getD i 0 then (i : ℤ) else lu p
      by_cases hqe : p = t.getD i 0
      · rw [if_pos hqe]
        exact Int.natCast_nonneg i
      · rw [if_neg hqe]
        exact hlu p
    rw [loopIdxT_succ]
    by_cases hmem : t.getD i 0 ∈ cache
    · rw [mruStep_hit t cap cache lu miss i hmem]
      exact ih (i + 1) cache _ miss hlu2 hle
    · by_cases hg : (cache.length : ℤ) = cap
      · have hne : cache ≠ [] := by
          intro h0
          rw [h0] at hg
          simp at hg
          omega
        obtain ⟨v, hv, hscan⟩ := mruScan_mem lu hlu cache hne
        have estep : mruStep t cap ⟨cache, lu, miss⟩ i =
            ⟨t.getD i 0 :: cache.erase v,
              fun q => if q = t.getD i 0 then (i : ℤ) else lu q, miss + 1⟩ := by
          simp only [mruStep]
          rw [if_neg hmem, if_pos hg, hscan]
        rw [estep]
        apply ih _ _ _ _ hlu2
        have h2 := List.length_erase_of_mem hv
        simp only [List.length_cons, h2]
        omega
      · rw [mruStep_missRoom t cap cache lu miss i hmem hg]
        apply ih _ _ _ _ hlu2
        simp only [List.length_cons]
        omega

theorem computeNextGo_length (pageID : List ℤ) (total : ℕ) :
    ∀ (k : ℕ) (fut : ℤ → Option ℕ), (computeNextGo pageID total k fut).length = k := by
  intro k
  induction k with
  | zero => intro fut; rfl
  | succ k ih =>
    intro fut
    simp [computeNextGo, ih]

theorem computeNextGo_succ (pageID : List ℤ) (total k : ℕ) (fut : ℤ → Option ℕ) :
    computeNextGo pageID total (k + 1) fut =
      computeNextGo pageID total k
          (fun q => if q = pageID.getD k 0 then some k else fut q) ++
        [match fut (pageID.getD k 0) with
         | some j => j
         | none => total] := rfl

/-- Each position of the `next` array produced by the backwards loop satisfies
its specification, given the `futureIndex` invariant for the still-unprocessed
positions. -/
theorem computeNextGo_spec (t : List ℤ) :
    ∀ (k : ℕ) (fut : ℤ → Option ℕ), k ≤ t.length → FutInv t k fut →
      ∀ i, i < k → NextSpec t i ((computeNextGo t t.length k fut).getD i 0) := by
  intro k
  induction k with
  | zero =>
    intro fut _ _ i hi
    exact absurd hi (by omega)
  | succ k ih =>
    intro fut hk hfut i hi
    rw [computeNextGo_succ]
    have hlen := computeNextGo_length t t.length k
      (fun q => if q = t.getD k 0 then some k else fut q)
    rcases Nat.lt_or_ge i k with hik | hik
    · -- position handled by the recursive call
      have hfut2 : FutInv t k (fun q => if q = t.getD k 0 then some k else fut q) := by
        constructor
        · intro q j hj
          have hj2 : (if q = t.getD k 0 then some k else fut q) = some j := hj
          by_cases hq : q = t.getD k 0
          · rw [if_pos hq] at hj2
            have hjk : j = k := by
              injection hj2 with h
              omega
            subst hjk
            exact ⟨le_refl j, by omega, hq.symm, fun m hm1 hm2 => absurd hm1 (by omega)⟩
          · rw [if_neg hq] at hj2
            obtain ⟨h1, h2, h3, h4⟩ := hfut.1 q j hj2
            refine ⟨by omega, h2, h3, fun m hm1 hm2 => ?_⟩
            rcases Nat.eq_or_lt_of_le hm1 with heq | hml
            · rw [← heq]
              exact fun h => hq h.symm
            · exact h4 m (by omega) hm2
        · intro q hq m hm1 hm2
          have hq2 : (if q = t.getD k 0 then some k else fut q) = none := hq
          by_cases hqp : q = t.getD k 0
          · rw [if_pos hqp] at hq2
            cases hq2
          · rw [if_neg hqp] at hq2
            rcases Nat.eq_or_lt_of_le hm1 with heq | hml
            · rw [← heq]
              exact fun h => hqp h.symm
            · exact hfut.2 q hq2 m (by omega) hm2
      have hspec := ih (fun q => if q = t.getD k 0 then some k else fut q)
        (by omega) hfut2 i hik
      rwa [List.getD_append _ _ _ _ (by omega)]
    · -- i = k: the element appended now
      have hieq : i = k := by omega
      subst hieq
      rw [List.getD_append_right _ _ _ _ (by omega)]
      have hdrop : i - (computeNextGo t t.length i
          (fun q => if q = t.getD i 0 then some i else fut q)).length = 0 := by
        omega
      rw [hdrop]
      cases hfp : fut (t.getD i 0) with
      | some j =>
        obtain ⟨h1, h2, h3, h4⟩ := hfut.1 _ j hfp
        show NextSpec t i j
        exact ⟨by omega, by omega, fun _ => h3, fun m hm1 hm2 => h4 m (by omega) hm2⟩
      | none =>
        show NextSpec t i t.length
        refine ⟨by omega, le_refl _, fun h => absurd h (lt_irrefl _), fun m hm1 hm2 => ?_⟩
        exact hfut.2 _ hfp m (by omega) hm2

/-- The `next` array of `OPT::processRAM` satisfies its specification at every
trace position. -/
theorem computeNext_spec (t : List ℤ) (i : ℕ) (hi : i < t.length) :
    NextSpec t i ((computeNext t).getD i 0) := by
  refine computeNextGo_spec t t.length (fun _ => none) (le_refl _) ⟨?_, ?_⟩ i hi
  · intro q j h
    cases h
  · intro q _ m hm1 hm2
    omega

/-- One completed OPT step preserves the OPT invariant (in particular, a full
miss genuinely evicts a resident, because every in-range `occSet` entry, the
chosen maximum included, belongs to a resident, and distinct in-range entries
belong to distinct residents). -/
theorem optStep_inv (t : List ℤ) (cap : ℤ) (hcap : 1 ≤ cap) (i : ℕ) (hi : i < t.length)
    (s u : OptState) (hinv : OptInv t cap i s)
    (hstep : optStep t (computeNext t) cap s i = some u) : OptInv t cap (i + 1) u := by
  obtain ⟨cache, occ, miss⟩ := s
  obtain ⟨hlen, hocc⟩ := hinv
  have hlen2 : (cache.length : ℤ) ≤ cap := hlen
  by_cases hmem : t.getD i 0 ∈ cache
  · rw [optStep_hit t (computeNext t) cap cache occ miss i hmem] at hstep
    injection hstep with hstep
    subst hstep
    refine ⟨hlen, ?_⟩
    intro j hj hjlen
    rcases Finset.mem_insert.mp hj with rfl | hj2
    · obtain ⟨h1, h2, h3, h4⟩ := computeNext_spec t i hi
      refine ⟨by omega, ?_, fun m hm1 hm2 => ?_⟩
      · rw [h3 hjlen]
        exact hmem
      · rw [h3 hjlen]
        exact h4 m (by omega) hm2
    · have hj3 := Finset.mem_of_mem_erase hj2
      have hjne : j ≠ i := Finset.ne_of_mem_erase hj2
      obtain ⟨ha, hb, hc⟩ := hocc j hj3 hjlen
      exact ⟨by omega, hb, fun m hm1 hm2 => hc m (by omega) hm2⟩
  · by_cases hg : (cache.length : ℤ) = cap
    · by_cases hne : occ.Nonempty
      · by_cases hbound : occ.max' hne < t.length
        · rw [optStep_missFull t (computeNext t) cap cache occ miss i hmem hg hne
            hbound] at hstep
          injection hstep with hstep
          subst hstep
          have hrmem : occ.max' hne ∈ occ := occ.max'_mem hne
          obtain ⟨hr1, hr2, hr3⟩ := hocc _ hrmem hbound
          constructor
          · show ((t.getD i 0 :: cache.erase (t.getD (occ.max' hne) 0)).length : ℤ) ≤ cap
            have h2 := List.length_erase_of_mem hr2
            simp only [List.length_cons, h2]
            omega
          · intro j hj hjlen
            rcases Finset.mem_insert.mp hj with rfl | hj2
            · obtain ⟨h1, h2, h3, h4⟩ := computeNext_spec t i hi
              refine ⟨by omega, ?_, fun m hm1 hm2 => ?_⟩
              · rw [h3 hjlen]
                exact List.mem_cons_self _ _
              · rw [h3 hjlen]
                exact h4 m (by omega) hm2
            · have hj3 := Finset.mem_of_mem_erase hj2
              have hjner : j ≠ occ.max' hne := Finset.ne_of_mem_erase hj2
              obtain ⟨ha, hb, hc⟩ := hocc j hj3 hjlen
              have hji : j ≠ i := by
                intro h
                subst h
                exact hmem hb
              refine ⟨by omega, ?_, fun m hm1 hm2 => hc m (by omega) hm2⟩
              have hvne : t.getD j 0 ≠ t.getD (occ.max' hne) 0 := by
                intro heq
                rcases Nat.lt_or_ge j (occ.max' hne) with hlt | hge
                · exact hr3 j ha hlt heq
                · have hlt2 : occ.max' hne < j := by omega
                  exact hc _ hr1 hlt2 heq.symm
              exact List.mem_cons_of_mem _ ((List.mem_erase_of_ne hvne).mpr hb)
        · have hnone : optStep t (computeNext t) cap ⟨cache, occ, miss⟩ i = none := by
            simp only [optStep]
            rw [if_neg hmem, if_pos hg, dif_pos hne, if_neg hbound]
          rw [hnone] at hstep
          cases hstep
      · have hnone : optStep t (computeNext t) cap ⟨cache, occ, miss⟩ i = none := by
          simp only [optStep]
          rw [if_neg hmem, if_pos hg, dif_neg hne]
        rw [hnone] at hstep
        cases hstep
    · rw [optStep_missRoom t (computeNext t) cap cache occ miss i hmem hg] at hstep
      injection hstep with hstep
      subst hstep
      constructor
      · show ((t.getD i 0 :: cache).length : ℤ) ≤ cap
        simp only [List.length_cons]
        push_cast
        omega
      · intro j hj hjlen
        rcases Finset.mem_insert.mp hj with rfl | hj2
        · obtain ⟨h1, h2, h3, h4⟩ := computeNext_spec t i hi
          refine ⟨by omega, ?_, fun m hm1 hm2 => ?_⟩
          · rw [h3 hjlen]
            exact List.mem_cons_self _ _
          · rw [h3 hjlen]
            exact h4 m (by omega) hm2
        · obtain ⟨ha, hb, hc⟩ := hocc j hj2 hjlen
          have hji : j ≠ i := by
            intro h
            subst h
            exact hmem hb
          exact ⟨by omega, List.mem_cons_of_mem _ hb,
            fun m hm1 hm2 => hc m (by omega) hm2⟩

/-- OPT size bound along any completed run segment inside the trace. -/
theorem opt_bound_go (t : List ℤ) (cap : ℤ) (hcap : 1 ≤ cap) :
    ∀ (n i : ℕ) (s : OptState), i + n ≤ t.length → OptInv t cap i s →
      ∀ u : OptState, loopIdx (optStep t (computeNext t) cap) s i n = some u →
        (u.cache.length : ℤ) ≤ cap := by
  intro n
  induction n with
  | zero =>
    intro i s _ hinv u hu
    cases hu
    exact hinv.1
  | succ n ih =>
    intro i s hin hinv u hu
    rw [loopIdx_succ] at hu
    cases hstep : optStep t (computeNext t) cap s i with
    | none =>
      rw [hstep] at hu
      cases hu
    | some s2 =>
      rw [hstep] at hu
      exact ih (i + 1) s2 (by omega)
        (optStep_inv t cap hcap i (by omega) s s2 hinv hstep) u hu

/-- C8: for capacity ≥ 1 every one of the four policies keeps at most
`frameCapacity` identifiers resident after every step of the evaluation: FIFO
over any trace (every prefix of a run is itself a run), LRU and MRU after any
number of steps `k`, and OPT after any `k ≤ len(trace)` completed steps (OPT
steps that hit the out-of-range eviction read abort and reach no state). -/
theorem C8_resident_bound :
    (∀ (o : List ℤ → ℤ → ℕ) (t : List ℤ) (cap : ℤ), 1 ≤ cap →
      ∀ u : FifoState, runPolicy (fifoStep o cap) ⟨[], [], 0⟩ t = some u →
        (u.cache.length : ℤ) ≤ cap) ∧
    (∀ (t : List ℤ) (cap : ℤ) (k : ℕ), 1 ≤ cap →
      (((loopIdxT (lruStep t cap) ⟨[], fun _ => 0, 0⟩ 0 k).cache.length : ℤ) ≤ cap)) ∧
    (∀ (t : List ℤ) (cap : ℤ) (k : ℕ), 1 ≤ cap →
      (((loopIdxT (mruStep t cap) ⟨[], fun _ => 0, 0⟩ 0 k).cache.length : ℤ) ≤ cap)) ∧
    (∀ (t : List ℤ) (cap : ℤ) (k : ℕ), 1 ≤ cap → k ≤ t.length →
      ∀ u : OptState, loopIdx (optStep t (computeNext t) cap) ⟨[], ∅, 0⟩ 0 k = some u →
        (u.cache.length : ℤ) ≤ cap) := by
  refine ⟨?_, ?_, ?_, ?_⟩
  · intro o t cap hcap u hu
    exact fifo_bound_go o cap hcap t [] [] 0 (List.Perm.refl _) (by simp; omega) u hu
  · intro t cap k hcap
    exact lru_bound_go t cap hcap k 0 [] (fun _ => 0) 0 (by simp; omega)
  · intro t cap k hcap
    exact mru_bound_go t cap hcap k 0 [] (fun _ => 0) 0 (fun _ => le_refl 0)
      (by simp; omega)
  · intro t cap k hcap hk u hu
    refine opt_bound_go t cap hcap k 0 ⟨[], ∅, 0⟩ (by omega) ⟨by simp; omega, ?_⟩ u hu
    intro j hj
    simp at hj

/-- C8 witness at trace `[1, 2]`, capacity 3, two steps. -/
theorem C8_resident_bound_witness :
    1 ≤ (3 : ℤ) ∧ (2 : ℕ) ≤ ([1, 2] : List ℤ).length ∧
    (((loopIdxT (lruStep [1, 2] 3) ⟨[], fun _ => 0, 0⟩ 0 2).cache.length : ℤ) ≤ 3) ∧
    (∀ u : OptState,
      loopIdx (optStep [1, 2] (computeNext [1, 2]) 3) ⟨[], ∅, 0⟩ 0 2 = some u →
        (u.cache.length : ℤ) ≤ 3) :=
  ⟨by norm_num, by norm_num,
    C8_resident_bound.2.1 [1, 2] 3 2 (by norm_num),
    C8_resident_bound.2.2.2 [1, 2] 3 2 (by norm_num) (by norm_num)⟩
